import Mathlib

/-!
Shallow embedding of the `rust-cli-calendar` program (`src/main.rs`).

Rust `String` values are modelled as `List Char` (UTF-8 byte-wise
lexicographic order coincides with code-point order, and byte-level
substring search coincides with character-level substring search, so this
model is faithful for comparison, splitting and containment).  Machine
integers (`u64`) are modelled as `Nat`; where the 64-bit range matters
(`str::parse::<u64>` rejecting overflow) the bound `2 ^ 64` is explicit.
The interactive prompts and printing are external collaborators; each
`Calendar` method is embedded as a pure function of the store plus the
strings the prompter would supply, and file contents are passed as values
(`Option Str`, `none` standing for an unreadable file).
-/

open List (Sublist Perm Pairwise IsInfix)

open scoped List

/-- Rust `String`, modelled as its sequence of characters. -/
abbrev Str := List Char

/-- Convenience: a Lean string literal as a `Str`. -/
def str (s : String) : Str := s.data

/-- `struct Event` from `src/main.rs`. -/
structure Event where
  id : Nat
  title : Str
  date : Str
  time : Str
  description : Str
deriving DecidableEq

/-- `struct Calendar` from `src/main.rs`. -/
structure Calendar where
  last_id : Nat
  events : List Event
deriving DecidableEq

/-- `Calendar::new`: `Calendar { last_id: 0, events: Vec::new() }`. -/
def Calendar.new : Calendar := { last_id := 0, events := [] }

/-- Rust `str::split(c)`: split at every occurrence of the character `c`;
`n` separators always yield `n + 1` (possibly empty) pieces. -/
def splitOnChar (c : Char) : Str → List Str
  | [] => [[]]
  | a :: rest =>
    match splitOnChar c rest with
    | [] => [[]]
    | s :: ss => if a = c then [] :: s :: ss else (a :: s) :: ss

/-- The per-line map of Rust `str::lines`: after the terminating `'\n'` has
been split off, one trailing `'\r'` is removed. -/
def stripCR (l : Str) : Str := if l.getLast? = some '\r' then l.dropLast else l

/-- Rust `str::lines()`: split at `'\n'` or `"\r\n"`; a final line
terminator does not produce an extra empty line. -/
def rustLines (s : Str) : List Str :=
  let parts := splitOnChar '\n' s
  let core := parts.dropLast.map stripCR
  match parts.getLast? with
  | some [] => core
  | some last => core ++ [last]
  | none => core

/-- Numeric value of a decimal digit character. -/
def digitVal (c : Char) : Nat := c.toNat - '0'.toNat

/-- Value of a big-endian string of decimal digits. -/
def digitsVal (s : Str) : Nat := s.foldl (fun a c => 10 * a + digitVal c) 0

/-- Rust `str::parse::<u64>()`: an optional leading `'+'`, then at least one
decimal digit and nothing else, with the value below `2 ^ 64`
(anything larger is an overflow error). -/
def parseU64 (s : Str) : Option Nat :=
  let t := if s.head? = some '+' then s.tail else s
  if t ≠ [] ∧ t.all Char.isDigit then
    if digitsVal t < 2 ^ 64 then some (digitsVal t) else none
  else none

/-- The body of the `for line in file.lines()` loop of `Calendar::load`:
split the line on `'|'`; with exactly 5 parts and a parseable id, build the
event; otherwise the line is skipped (silently for a wrong part count, with
a printed message for a bad id). -/
def lineToEvent (line : Str) : Option Event :=
  match splitOnChar '|' line with
  | [p0, p1, p2, p3, p4] =>
    match parseU64 p0 with
    | some id => some { id := id, title := p1, date := p2, time := p3, description := p4 }
    | none => none
  | _ => none

/-- One step of `Calendar::load`'s loop acting on the accumulated
`(events, max_id)` state: a well-formed line pushes its event and raises
`max_id`; any other line leaves the state alone. -/
def processLine (st : List Event × Nat) (line : Str) : List Event × Nat :=
  match lineToEvent line with
  | some e => (st.1 ++ [e], max st.2 e.id)
  | none => st

/-- `Calendar::load`.  The file contents stand in for
`std::fs::read_to_string`: `none` is a failed read (message printed, early
`return Ok(())`, store untouched); `some content` runs the parsing loop
over `content.lines()` starting from `max_id = 0` and then executes
`self.last_id = max_id`. -/
def Calendar.load (c : Calendar) (file : Option Str) : Calendar :=
  match file with
  | none => c
  | some content =>
    let r := (rustLines content).foldl processLine (c.events, 0)
    { last_id := r.2, events := r.1 }

/-- The events parsed from a file's contents, in file order. -/
def parsedEvents (content : Str) : List Event :=
  (rustLines content).filterMap lineToEvent

/-- The largest id among the ingested lines of a file (`0` if none). -/
def maxParsedId (content : Str) : Nat :=
  (parsedEvents content).foldl (fun m e => max m e.id) 0

/-- Decimal rendering with structural fuel (any `fuel > n` is enough, since
a number has no more digits than its value). -/
def natToStrAux : Nat → Nat → Str
  | 0, _ => []
  | fuel + 1, n =>
    if n < 10 then [Nat.digitChar n]
    else natToStrAux fuel (n / 10) ++ [Nat.digitChar (n % 10)]

/-- Rust's `Display` for `u64` as used by
`writeln!(file, "{}|{}|{}|{}|{}", id, ...)`: plain decimal digits,
`"0"` for zero. -/
def natToStr (n : Nat) : Str := natToStrAux (n + 1) n

/-- The serialized body of one event (the line without its `'\n'`). -/
def serializeEvent (e : Event) : Str :=
  natToStr e.id ++ '|' :: (e.title ++ '|' :: (e.date ++ '|' :: (e.time ++ '|' :: e.description)))

/-- `Calendar::save`: the full file contents written for a store, one
newline-terminated line per event in insertion order. -/
def saveContent (c : Calendar) : Str :=
  (c.events.map (fun e => serializeEvent e ++ ['\n'])).flatten

/-- `Calendar::create_event`: `self.last_id += 1`, then push the event built
from the four prompted strings with `id: self.last_id`. -/
def Calendar.create_event (c : Calendar) (title date time description : Str) : Calendar :=
  { last_id := c.last_id + 1,
    events := c.events ++ [{ id := c.last_id + 1, title := title, date := date,
                             time := time, description := description }] }

/-- `Vec::iter().position(p)` followed by `Vec::remove(pos)`: drop the first
element satisfying `p`, reporting whether one was found. -/
def removeFirst (p : Event → Bool) : List Event → List Event × Bool
  | [] => ([], false)
  | e :: rest =>
    if p e then (rest, true)
    else
      let r := removeFirst p rest
      (e :: r.1, r.2)

/-- `Calendar::delete_event` for a prompted id. -/
def Calendar.delete_event (c : Calendar) (id : Nat) : Calendar × Bool :=
  let r := removeFirst (fun e => e.id == id) c.events
  ({ last_id := c.last_id, events := r.1 }, r.2)

/-- The field overwrites of `Calendar::update_event`: each prompted string,
when non-empty, replaces the corresponding field; an empty string keeps the
current value. -/
def applyUpdate (t d tm ds : Str) (e : Event) : Event :=
  { e with
    title := if t = [] then e.title else t,
    date := if d = [] then e.date else d,
    time := if tm = [] then e.time else tm,
    description := if ds = [] then e.description else ds }

/-- `Vec::iter_mut().find(p)` followed by in-place mutation: apply `f` to
the first element satisfying `p`, reporting whether one was found. -/
def updateFirst (p : Event → Bool) (f : Event → Event) : List Event → List Event × Bool
  | [] => ([], false)
  | e :: rest =>
    if p e then (f e :: rest, true)
    else
      let r := updateFirst p f rest
      (e :: r.1, r.2)

/-- `Calendar::update_event` for a prompted id and four prompted strings. -/
def Calendar.update_event (c : Calendar) (id : Nat) (t d tm ds : Str) : Calendar × Bool :=
  let r := updateFirst (fun e => e.id == id) (applyUpdate t d tm ds) c.events
  ({ last_id := c.last_id, events := r.1 }, r.2)

/-- The lookup shared by `Calendar::view` (and `update`/`delete`'s searches):
`self.events.iter().find(|e| e.id == id)`. -/
def Calendar.findById (c : Calendar) (id : Nat) : Option Event :=
  c.events.find? (fun e => e.id == id)

/-- Rust `str::contains(&str)`: substring containment, here as infix of the
character sequences. -/
def containsStr (s q : Str) : Bool := decide (q <:+: s)

/-- `Calendar::search`: the events printed for a query, in insertion
order. -/
def Calendar.search (c : Calendar) (q : Str) : List Event :=
  c.events.filter (fun e => containsStr e.title q || containsStr e.description q)

/-- Rust byte-wise `<` on strings (lexicographic; for valid UTF-8 this is
code-point lexicographic order, as modelled here). -/
def strLt : Str → Str → Bool
  | [], [] => false
  | _ :: _, [] => false
  | [], _ :: _ => true
  | a :: s, b :: t => if a < b then true else if b < a then false else strLt s t

/-- The filter of `Calendar::upcoming_events`:
`e.date > date || (e.date == date && e.time >= time)`. -/
def upcomingPred (now_date now_time : Str) (e : Event) : Bool :=
  strLt now_date e.date || (e.date == now_date && !strLt e.time now_time)

/-- The `sort_by` comparator of `Calendar::upcoming_events`, as the
"not Greater" Boolean relation a stable sort orders by: compare dates,
breaking date ties by time. -/
def eventLe (a b : Event) : Bool :=
  if a.date == b.date then !strLt b.time a.time else !strLt b.date a.date

/-- `Calendar::upcoming_events`, with the `Local::now()` strings passed in:
filter, then stable-sort by the comparator (Rust's `sort_by` is stable;
`List.mergeSort` realizes the same uniquely determined output). -/
def Calendar.upcoming_events (c : Calendar) (now_date now_time : Str) : List Event :=
  (c.events.filter (upcomingPred now_date now_time)).mergeSort eventLe

/-- The session operations of the driver loop that mutate the store without
touching the filesystem (`create`, `delete`, `update`), with the strings
the prompter would supply. -/
inductive CalOp where
  | create (title date time description : Str)
  | delete (id : Nat)
  | update (id : Nat) (t d tm ds : Str)

/-- Dispatch of one `CalOp` on the store, as `handle_command` does. -/
def applyOp (c : Calendar) : CalOp → Calendar
  | .create t d tm ds => c.create_event t d tm ds
  | .delete id => (c.delete_event id).1
  | .update id t d tm ds => (c.update_event id t d tm ds).1

/-- The store reached from `Calendar::new` by a sequence of operations. -/
def runOps (ops : List CalOp) : Calendar := ops.foldl applyOp Calendar.new

/-- The id invariants of the store: every event's id is bounded by
`last_id`, and ids are pairwise distinct. -/
def CalInv (c : Calendar) : Prop :=
  (∀ e ∈ c.events, e.id ≤ c.last_id) ∧ c.events.Pairwise (fun a b => a.id ≠ b.id)

/-! ## The parsing loop of `Calendar::load` -/

theorem foldl_processLine : ∀ (lines : List Str) (evs : List Event) (m : Nat),
    lines.foldl processLine (evs, m) =
      (evs ++ lines.filterMap lineToEvent,
       (lines.filterMap lineToEvent).foldl (fun acc e => max acc e.id) m)
  | [], evs, m => by simp
  | line :: rest, evs, m => by
    cases h : lineToEvent line with
    | none => simp [processLine, h, foldl_processLine rest evs m]
    | some e => simp [processLine, h, foldl_processLine rest (evs ++ [e]) (max m e.id)]

theorem load_some_events (c : Calendar) (content : Str) :
    (c.load (some content)).events = c.events ++ parsedEvents content := by
  simp [Calendar.load, parsedEvents, foldl_processLine]

theorem load_some_last_id (c : Calendar) (content : Str) :
    (c.load (some content)).last_id = maxParsedId content := by
  simp [Calendar.load, parsedEvents, maxParsedId, foldl_processLine]

/-- C1 -- counterexample. A store whose `last_id` is `5` (holding the event
with id `5`) loads a readable file whose only (and largest) parsed id is
`3`; afterwards `last_id` is `3`, not `max 3 5 = 5` as the claim states,
so the next `create` would reuse id `4 ≤ 5` and, after another load-free
step, even collide with id `5`. -/
theorem load_overwrites_last_id_cex :
    maxParsedId (str "3|a|b|c|d") = 3 ∧
    ((Calendar.mk 5 [Event.mk 5 (str "x") (str "y") (str "z") (str "w")]).load
        (some (str "3|a|b|c|d"))).last_id = 3 ∧
    (3 : Nat) ≠ max 3 5 := by
  refine ⟨by decide, ?_, by decide⟩
  decide

/-- C1 (amended) -- after `load` of a readable file, `last_id` equals the
largest id successfully parsed from the file (`0` if none), regardless of
its prior value; consequently the next `create` appends an event whose id
is that largest parsed id plus one. -/
theorem load_sets_last_id_to_max_parsed (c : Calendar) (content : Str)
    (t d tm ds : Str) :
    (c.load (some content)).last_id = maxParsedId content ∧
    ((c.load (some content)).create_event t d tm ds).events =
      (c.load (some content)).events ++
        [{ id := maxParsedId content + 1, title := t, date := d,
           time := tm, description := ds }] := by
  refine ⟨load_some_last_id c content, ?_⟩
  simp [Calendar.create_event, load_some_last_id c content]

/-- C5 -- `load` ingests exactly the lines that split on `'|'` into exactly
5 parts with a parseable `u64` id (`lineToEvent`), appending them in file
order with fields verbatim, and sets `last_id` to the maximum id over the
ingested lines only (starting from `0`). -/
theorem load_ingests_exactly_wellformed_lines (c : Calendar) (content : Str) :
    (c.load (some content)).events =
      c.events ++ (rustLines content).filterMap lineToEvent ∧
    (c.load (some content)).last_id =
      ((rustLines content).filterMap lineToEvent).foldl (fun m e => max m e.id) 0 := by
  exact ⟨load_some_events c content, load_some_last_id c content⟩

/-! ## Id invariants of the session operations -/

theorem removeFirst_sublist (p : Event → Bool) : ∀ l : List Event, (removeFirst p l).1 <+ l
  | [] => by simp [removeFirst]
  | e :: rest => by
    simp only [removeFirst]
    split
    · exact List.sublist_cons_self e rest
    · exact (removeFirst_sublist p rest).cons₂ e

theorem updateFirst_map_id (p : Event → Bool) (f : Event → Event)
    (hf : ∀ e, (f e).id = e.id) :
    ∀ l : List Event, (updateFirst p f l).1.map (fun e => e.id) = l.map (fun e => e.id)
  | [] => by simp [updateFirst]
  | e :: rest => by
    simp only [updateFirst]
    split
    · simp [hf e]
    · simp [updateFirst_map_id p f hf rest]

theorem inv_applyOp {c : Calendar} (h : CalInv c) (op : CalOp) : CalInv (applyOp c op) := by
  obtain ⟨hle, huniq⟩ := h
  cases op with
  | create t d tm ds =>
    refine ⟨?_, ?_⟩
    · intro e he
      simp only [applyOp, Calendar.create_event, List.mem_append, List.mem_singleton] at he ⊢
      rcases he with he | rfl
      · exact Nat.le_succ_of_le (hle e he)
      · exact Nat.le_refl _
    · simp only [applyOp, Calendar.create_event]
      refine List.pairwise_append.mpr ⟨huniq, List.pairwise_singleton _ _, ?_⟩
      intro a ha b hb
      simp only [List.mem_singleton] at hb
      subst hb
      have := hle a ha
      simp only []
      omega
  | delete id =>
    have hsub : (removeFirst (fun e => e.id == id) c.events).1 <+ c.events :=
      removeFirst_sublist _ c.events
    refine ⟨?_, ?_⟩
    · intro e he
      show e.id ≤ c.last_id
      exact hle e (hsub.subset he)
    · show Pairwise _ (removeFirst (fun e => e.id == id) c.events).1
      exact huniq.sublist hsub
  | update id t d tm ds =>
    have hmap : (updateFirst (fun e => e.id == id) (applyUpdate t d tm ds) c.events).1.map
        (fun e => e.id) = c.events.map (fun e => e.id) :=
      updateFirst_map_id (fun e => e.id == id) (applyUpdate t d tm ds)
        (fun e => rfl) c.events
    refine ⟨?_, ?_⟩
    · intro e he
      show e.id ≤ c.last_id
      have hid : e.id ∈ c.events.map (fun e => e.id) := by
        rw [← hmap]
        exact List.mem_map_of_mem _ he
      obtain ⟨e₀, he₀, hide⟩ := List.mem_map.mp hid
      rw [← hide]
      exact hle e₀ he₀
    · show Pairwise (fun a b => a.id ≠ b.id)
          (updateFirst (fun e => e.id == id) (applyUpdate t d tm ds) c.events).1
      have h₁ : (c.events.map (fun e => e.id)).Pairwise (fun a b => a ≠ b) :=
        (List.pairwise_map).mpr huniq
      rw [← hmap] at h₁
      exact (List.pairwise_map).mp h₁

theorem runOps_aux : ∀ (ops : List CalOp) (c : Calendar), CalInv c → CalInv (ops.foldl applyOp c)
  | [], _, h => h
  | op :: ops, c, h => runOps_aux ops (applyOp c op) (inv_applyOp h op)

/-- C2 (amended) -- in every store reachable from a fresh store by a
sequence of `create`, `delete` and `update` operations (`load` excluded:
it can both lower `last_id` below existing ids and ingest duplicate ids,
see the counterexample), every event's id is at most `last_id` and the
events' ids are pairwise distinct. -/
theorem reachable_store_id_invariants (ops : List CalOp) :
    (∀ e ∈ (runOps ops).events, e.id ≤ (runOps ops).last_id) ∧
    (runOps ops).events.Pairwise (fun a b => a.id ≠ b.id) := by
  have h : CalInv (runOps ops) :=
    runOps_aux ops Calendar.new ⟨by simp [Calendar.new], by simp [Calendar.new]⟩
  exact h

/-- C2 -- counterexample. The claimed invariant quantifies over sequences
that include `load`.  Create an event (id `1`), load an empty but readable
file (this resets `last_id` to `0`), then create again: the second create
also gets id `1`, so the reachable store holds two events with equal ids. -/
theorem duplicate_ids_reachable_cex :
    ¬ ((((Calendar.new.create_event (str "t") (str "d") (str "m") (str "s")).load
          (some [])).create_event (str "t") (str "d") (str "m") (str "s")).events.Pairwise
        (fun a b => a.id ≠ b.id)) := by
  decide

/-! ## Not-found operations and failed loads are no-ops (C8) -/

theorem removeFirst_of_forall_not (p : Event → Bool) :
    ∀ l : List Event, (∀ e ∈ l, p e = false) → removeFirst p l = (l, false)
  | [], _ => rfl
  | e :: rest, h => by
    have he : p e = false := h e (List.mem_cons_self e rest)
    have ih := removeFirst_of_forall_not p rest (fun x hx => h x (List.mem_cons_of_mem e hx))
    simp [removeFirst, he, ih]

theorem updateFirst_of_forall_not (p : Event → Bool) (f : Event → Event) :
    ∀ l : List Event, (∀ e ∈ l, p e = false) → updateFirst p f l = (l, false)
  | [], _ => rfl
  | e :: rest, h => by
    have he : p e = false := h e (List.mem_cons_self e rest)
    have ih := updateFirst_of_forall_not p f rest (fun x hx => h x (List.mem_cons_of_mem e hx))
    simp [updateFirst, he, ih]

/-- C8 -- `delete`, `update` and `view` on an id absent from the store
report not-found and leave `events` and `last_id` exactly as they were, and
a `load` whose file cannot be read leaves the store unchanged. -/
theorem absent_id_and_failed_load_are_noops (c : Calendar) (id : Nat)
    (t d tm ds : Str) (h : ∀ e ∈ c.events, e.id ≠ id) :
    c.delete_event id = (c, false) ∧
    c.update_event id t d tm ds = (c, false) ∧
    c.findById id = none ∧
    c.load none = c := by
  have hp : ∀ e ∈ c.events, (e.id == id) = false := by
    intro e he
    exact beq_eq_false_iff_ne.mpr (h e he)
  refine ⟨?_, ?_, ?_, rfl⟩
  · simp [Calendar.delete_event, removeFirst_of_forall_not _ _ hp]
  · simp [Calendar.update_event, updateFirst_of_forall_not _ _ _ hp]
  · simp only [Calendar.findById, List.find?_eq_none]
    intro e he
    simp [h e he]

/-- C8 -- witness: on a concrete two-event store, id `999` is absent and
the theorem applies. -/
theorem absent_id_and_failed_load_are_noops_witness :
    (∀ e ∈ (Calendar.mk 2 [Event.mk 1 (str "a") (str "b") (str "c") (str "d"),
        Event.mk 2 (str "e") (str "f") (str "g") (str "h")]).events, e.id ≠ 999) ∧
    ((Calendar.mk 2 [Event.mk 1 (str "a") (str "b") (str "c") (str "d"),
        Event.mk 2 (str "e") (str "f") (str "g") (str "h")]).delete_event 999 =
      (Calendar.mk 2 [Event.mk 1 (str "a") (str "b") (str "c") (str "d"),
        Event.mk 2 (str "e") (str "f") (str "g") (str "h")], false) ∧
     (Calendar.mk 2 [Event.mk 1 (str "a") (str "b") (str "c") (str "d"),
        Event.mk 2 (str "e") (str "f") (str "g") (str "h")]).update_event 999
          (str "nt") (str "nd") (str "nm") (str "ns") =
      (Calendar.mk 2 [Event.mk 1 (str "a") (str "b") (str "c") (str "d"),
        Event.mk 2 (str "e") (str "f") (str "g") (str "h")], false) ∧
     (Calendar.mk 2 [Event.mk 1 (str "a") (str "b") (str "c") (str "d"),
        Event.mk 2 (str "e") (str "f") (str "g") (str "h")]).findById 999 = none ∧
     (Calendar.mk 2 [Event.mk 1 (str "a") (str "b") (str "c") (str "d"),
        Event.mk 2 (str "e") (str "f") (str "g") (str "h")]).load none =
      Calendar.mk 2 [Event.mk 1 (str "a") (str "b") (str "c") (str "d"),
        Event.mk 2 (str "e") (str "f") (str "g") (str "h")]) :=
  ⟨by decide,
   absent_id_and_failed_load_are_noops _ 999 (str "nt") (str "nd") (str "nm") (str "ns")
     (by decide)⟩

/-! ## Update (C6) and delete (C7) on a present id -/

theorem updateFirst_append (p : Event → Bool) (f : Event → Event) (e : Event) (post : List Event) :
    ∀ pre : List Event, (∀ x ∈ pre, p x = false) → p e = true →
      updateFirst p f (pre ++ e :: post) = (pre ++ f e :: post, true)
  | [], _, he => by simp [updateFirst, he]
  | x :: pre, hpre, he => by
    have hx : p x = false := hpre x (List.mem_cons_self x pre)
    have ih := updateFirst_append p f e post pre
      (fun y hy => hpre y (List.mem_cons_of_mem x hy)) he
    simp [updateFirst, hx, ih]

/-- C6 -- on a store whose events are `pre ++ e :: post` with `e` the first
event carrying the target id, `update` succeeds and replaces exactly `e` by
`applyUpdate t d tm ds e` (each field overwritten precisely when the
supplied string is non-empty); with all four strings empty the whole store
is returned bit-identical. -/
theorem update_overwrites_exactly_nonempty_fields (c : Calendar) (id : Nat)
    (pre : List Event) (e : Event) (post : List Event) (t d tm ds : Str)
    (hsplit : c.events = pre ++ e :: post) (hid : e.id = id)
    (hpre : ∀ x ∈ pre, x.id ≠ id) :
    c.update_event id t d tm ds =
      (Calendar.mk c.last_id (pre ++ applyUpdate t d tm ds e :: post), true) ∧
    c.update_event id [] [] [] [] = (c, true) := by
  have hpf : ∀ x ∈ pre, (x.id == id) = false := fun x hx =>
    beq_eq_false_iff_ne.mpr (hpre x hx)
  have hpe : (e.id == id) = true := beq_iff_eq.mpr hid
  have key : ∀ t' d' tm' ds' : Str,
      c.update_event id t' d' tm' ds' =
        (Calendar.mk c.last_id (pre ++ applyUpdate t' d' tm' ds' e :: post), true) := by
    intro t' d' tm' ds'
    simp only [Calendar.update_event, hsplit,
      updateFirst_append _ _ _ _ pre hpf hpe]
  refine ⟨key t d tm ds, ?_⟩
  rw [key [] [] [] []]
  have happ : applyUpdate [] [] [] [] e = e := by
    simp [applyUpdate]
  rw [happ, ← hsplit]

/-- C6 -- witness: a concrete two-event store, updating the second event's
title and leaving the rest; and the all-empty update is the identity. -/
theorem update_overwrites_exactly_nonempty_fields_witness :
    ((Calendar.mk 2 [Event.mk 1 (str "a") (str "b") (str "c") (str "d"),
        Event.mk 2 (str "e") (str "f") (str "g") (str "h")]).events =
      [Event.mk 1 (str "a") (str "b") (str "c") (str "d")] ++
        Event.mk 2 (str "e") (str "f") (str "g") (str "h") :: [] ∧
     (Event.mk 2 (str "e") (str "f") (str "g") (str "h")).id = 2 ∧
     (∀ x ∈ [Event.mk 1 (str "a") (str "b") (str "c") (str "d")], x.id ≠ 2)) ∧
    ((Calendar.mk 2 [Event.mk 1 (str "a") (str "b") (str "c") (str "d"),
        Event.mk 2 (str "e") (str "f") (str "g") (str "h")]).update_event 2
          (str "T") [] [] [] =
      (Calendar.mk 2 ([Event.mk 1 (str "a") (str "b") (str "c") (str "d")] ++
        applyUpdate (str "T") [] [] []
          (Event.mk 2 (str "e") (str "f") (str "g") (str "h")) :: []), true) ∧
     (Calendar.mk 2 [Event.mk 1 (str "a") (str "b") (str "c") (str "d"),
        Event.mk 2 (str "e") (str "f") (str "g") (str "h")]).update_event 2 [] [] [] [] =
      (Calendar.mk 2 [Event.mk 1 (str "a") (str "b") (str "c") (str "d"),
        Event.mk 2 (str "e") (str "f") (str "g") (str "h")], true)) :=
  ⟨⟨by decide, by decide, by decide⟩,
   update_overwrites_exactly_nonempty_fields _ 2 _ _ _ (str "T") [] [] []
     (by decide) (by decide) (by decide)⟩

theorem removeFirst_of_unique (id : Nat) :
    ∀ l : List Event, l.Pairwise (fun a b => a.id ≠ b.id) → (∃ e ∈ l, e.id = id) →
      removeFirst (fun e => e.id == id) l = (l.filter (fun e => !(e.id == id)), true)
  | [], _, hmem => by simp at hmem
  | e :: rest, huniq, hmem => by
    obtain ⟨hhead, htail⟩ := List.pairwise_cons.mp huniq
    by_cases he : e.id = id
    · have hpe : (e.id == id) = true := beq_iff_eq.mpr he
      have hrest : rest.filter (fun x => !(x.id == id)) = rest := by
        apply List.filter_eq_self.mpr
        intro x hx
        have : x.id ≠ id := by
          have := hhead x hx
          omega
        simp [this]
      simp [removeFirst, hpe, hrest]
    · have hpe : (e.id == id) = false := beq_eq_false_iff_ne.mpr he
      have hmem' : ∃ x ∈ rest, x.id = id := by
        rcases hmem with ⟨x, hx, hxid⟩
        rcases List.mem_cons.mp hx with rfl | hx'
        · exact absurd hxid he
        · exact ⟨x, hx', hxid⟩
      have ih := removeFirst_of_unique id rest htail hmem'
      simp [removeFirst, hpe, ih]

/-- C7 -- deleting a present id (under the unique-ids invariant) reports
found, leaves `last_id` unchanged, leaves exactly the other events in their
original relative order, and afterwards the id is no longer retrievable by
`get`/`view`. -/
theorem delete_is_exact (c : Calendar) (id : Nat)
    (hmem : ∃ e ∈ c.events, e.id = id)
    (huniq : c.events.Pairwise (fun a b => a.id ≠ b.id)) :
    (c.delete_event id).2 = true ∧
    (c.delete_event id).1.last_id = c.last_id ∧
    (c.delete_event id).1.events = c.events.filter (fun e => !(e.id == id)) ∧
    (c.delete_event id).1.findById id = none := by
  have key := removeFirst_of_unique id c.events huniq hmem
  refine ⟨?_, rfl, ?_, ?_⟩
  · show (removeFirst (fun e => e.id == id) c.events).2 = true
    rw [key]
  · show (removeFirst (fun e => e.id == id) c.events).1 = _
    rw [key]
  · show ((removeFirst (fun e => e.id == id) c.events).1).find? (fun e => e.id == id) = none
    rw [key]
    simp only [List.find?_eq_none]
    intro e he
    have := (List.mem_filter.mp he).2
    simp only [Bool.not_eq_true'] at this
    simp [this]

/-- C7 -- witness: deleting id `1` from a concrete two-event store with
distinct ids. -/
theorem delete_is_exact_witness :
    ((∃ e ∈ (Calendar.mk 2 [Event.mk 1 (str "a") (str "b") (str "c") (str "d"),
        Event.mk 2 (str "e") (str "f") (str "g") (str "h")]).events, e.id = 1) ∧
     (Calendar.mk 2 [Event.mk 1 (str "a") (str "b") (str "c") (str "d"),
        Event.mk 2 (str "e") (str "f") (str "g") (str "h")]).events.Pairwise
          (fun a b => a.id ≠ b.id)) ∧
    (((Calendar.mk 2 [Event.mk 1 (str "a") (str "b") (str "c") (str "d"),
        Event.mk 2 (str "e") (str "f") (str "g") (str "h")]).delete_event 1).2 = true ∧
     ((Calendar.mk 2 [Event.mk 1 (str "a") (str "b") (str "c") (str "d"),
        Event.mk 2 (str "e") (str "f") (str "g") (str "h")]).delete_event 1).1.last_id =
       (Calendar.mk 2 [Event.mk 1 (str "a") (str "b") (str "c") (str "d"),
        Event.mk 2 (str "e") (str "f") (str "g") (str "h")]).last_id ∧
     ((Calendar.mk 2 [Event.mk 1 (str "a") (str "b") (str "c") (str "d"),
        Event.mk 2 (str "e") (str "f") (str "g") (str "h")]).delete_event 1).1.events =
       (Calendar.mk 2 [Event.mk 1 (str "a") (str "b") (str "c") (str "d"),
        Event.mk 2 (str "e") (str "f") (str "g") (str "h")]).events.filter
          (fun e => !(e.id == 1)) ∧
     ((Calendar.mk 2 [Event.mk 1 (str "a") (str "b") (str "c") (str "d"),
        Event.mk 2 (str "e") (str "f") (str "g") (str "h")]).delete_event 1).1.findById 1 =
       none) :=
  ⟨⟨⟨Event.mk 1 (str "a") (str "b") (str "c") (str "d"), by decide, by decide⟩, by decide⟩,
   delete_is_exact _ 1
     ⟨Event.mk 1 (str "a") (str "b") (str "c") (str "d"), by decide, by decide⟩
     (by decide)⟩

/-! ## Search (C9) and the delimiter fragility witness (C10) -/

theorem empty_isInfixOf (l : Str) : [] <:+: l := ⟨[], l, by simp⟩

/-- C9 -- `search` returns a subsequence of the store (so matches appear in
insertion order), its members are exactly the events whose title or
description contains the query as a (case-sensitive, unnormalized)
substring, and the empty query returns every event. -/
theorem search_filters_by_substring (c : Calendar) (q : Str) :
    c.search q <+ c.events ∧
    (∀ e, e ∈ c.search q ↔
      e ∈ c.events ∧ (q <:+: e.title ∨ q <:+: e.description)) ∧
    c.search [] = c.events := by
  refine ⟨List.filter_sublist _, ?_, ?_⟩
  · intro e
    simp [Calendar.search, List.mem_filter, containsStr]
  · apply List.filter_eq_self.mpr
    intro e _
    simp [containsStr, empty_isInfixOf]

/-- C10 -- `create` stores a title containing `'|'` verbatim (no
validation); its saved line then splits into 6 parts instead of 5, so a
save/load round trip into a fresh store silently drops the event. -/
theorem pipe_in_title_breaks_roundtrip :
    (Calendar.new.create_event (str "a|b") (str "2025-01-01") (str "10:00")
        (str "d")).events =
      [Event.mk 1 (str "a|b") (str "2025-01-01") (str "10:00") (str "d")] ∧
    (splitOnChar '|' (serializeEvent
        (Event.mk 1 (str "a|b") (str "2025-01-01") (str "10:00") (str "d")))).length = 6 ∧
    (Calendar.new.load (some (saveContent
        (Calendar.new.create_event (str "a|b") (str "2025-01-01") (str "10:00")
          (str "d"))))).events = [] := by
  refine ⟨by decide, by decide, by decide⟩

/-! ## Order facts for the string comparison used by `upcoming_events` -/

theorem strLt_nil_right : ∀ s : Str, strLt s [] = false
  | [] => rfl
  | _ :: _ => rfl

theorem strLt_irrefl : ∀ s : Str, strLt s s = false
  | [] => rfl
  | a :: s => by simp [strLt, strLt_irrefl s, lt_irrefl]

theorem strLt_asymm : ∀ s t : Str, strLt s t = true → strLt t s = false
  | [], [], h => by simp [strLt] at h
  | a :: s, [], h => by simp [strLt] at h
  | [], b :: t, _ => strLt_nil_right (b :: t)
  | a :: s, b :: t, h => by
    simp only [strLt] at h ⊢
    by_cases hab : a < b
    · simp [lt_asymm hab, hab]
    · by_cases hba : b < a
      · simp [hab, hba] at h
      · simp only [hab, hba, if_false] at h ⊢
        exact strLt_asymm s t h

theorem strLt_trans : ∀ s t u : Str, strLt s t = true → strLt t u = true → strLt s u = true
  | _, t, [], _, htu => by rw [strLt_nil_right t] at htu; cases htu
  | [], _, _ :: _, _, _ => rfl
  | a :: s, [], _ :: _, hst, _ => by rw [strLt_nil_right (a :: s)] at hst; cases hst
  | a :: s, b :: t, c :: u, hst, htu => by
    simp only [strLt] at hst htu ⊢
    by_cases hab : a < b
    · by_cases hbc : b < c
      · simp [lt_trans hab hbc]
      · by_cases hcb : c < b
        · simp [hbc, hcb] at htu
        · have : b = c := le_antisymm (le_of_not_lt hcb) (le_of_not_lt hbc)
          subst this
          simp [hab]
    · by_cases hba : b < a
      · simp [hab, hba] at hst
      · have : a = b := le_antisymm (le_of_not_lt hba) (le_of_not_lt hab)
        subst this
        rw [if_neg (lt_irrefl a), if_neg (lt_irrefl a)] at hst
        by_cases hac : a < c
        · simp [hac]
        · by_cases hca : c < a
          · simp [hac, hca] at htu
          · simp only [hac, hca, if_false] at htu ⊢
            exact strLt_trans s t u hst htu

theorem strLt_trichotomy : ∀ s t : Str, strLt s t = true ∨ s = t ∨ strLt t s = true
  | [], [] => Or.inr (Or.inl rfl)
  | [], _ :: _ => Or.inl rfl
  | _ :: _, [] => Or.inr (Or.inr rfl)
  | a :: s, b :: t => by
    rcases lt_trichotomy a b with hab | rfl | hba
    · exact Or.inl (by simp [strLt, hab])
    · rcases strLt_trichotomy s t with h | rfl | h
      · exact Or.inl (by simp only [strLt, lt_irrefl, if_false]; exact h)
      · exact Or.inr (Or.inl rfl)
      · exact Or.inr (Or.inr (by simp only [strLt, lt_irrefl, if_false]; exact h))
    · exact Or.inr (Or.inr (by simp [strLt, hba]))

theorem strLt_eq_of_not (s t : Str) (h1 : strLt s t = false) (h2 : strLt t s = false) :
    s = t := by
  rcases strLt_trichotomy s t with h | h | h
  · simp [h1] at h
  · exact h
  · simp [h2] at h

theorem strLt_false_trans (a b c : Str) (h1 : strLt b a = false) (h2 : strLt c b = false) :
    strLt c a = false := by
  cases hca : strLt c a
  · rfl
  · exfalso
    rcases strLt_trichotomy a b with hab | rfl | hba
    · have := strLt_trans c a b hca hab
      simp [h2] at this
    · simp [h2] at hca
    · simp [h1] at hba

theorem not_strLt_or_not_strLt (x y : Str) : (!strLt x y || !strLt y x) = true := by
  cases h : strLt x y
  · simp
  · simp [strLt_asymm x y h]

theorem eventLe_total (a b : Event) : (eventLe a b || eventLe b a) = true := by
  simp only [eventLe]
  by_cases h : a.date = b.date
  · rw [if_pos (beq_iff_eq.mpr h), if_pos (beq_iff_eq.mpr h.symm)]
    exact not_strLt_or_not_strLt b.time a.time
  · rw [if_neg (by simp [beq_eq_false_iff_ne.mpr h]),
      if_neg (by simp [beq_eq_false_iff_ne.mpr (Ne.symm h)])]
    exact not_strLt_or_not_strLt b.date a.date

theorem eventLe_trans (a b c : Event) (hab : eventLe a b = true) (hbc : eventLe b c = true) :
    eventLe a c = true := by
  simp only [eventLe] at hab hbc ⊢
  by_cases h1 : a.date = b.date <;> by_cases h2 : b.date = c.date
  · have h3 : a.date = c.date := h1.trans h2
    rw [if_pos (beq_iff_eq.mpr h1)] at hab
    rw [if_pos (beq_iff_eq.mpr h2)] at hbc
    rw [if_pos (beq_iff_eq.mpr h3)]
    simp only [Bool.not_eq_true'] at hab hbc ⊢
    exact strLt_false_trans a.time b.time c.time hab hbc
  · have h3 : a.date ≠ c.date := fun h => h2 (h1.symm.trans h)
    rw [if_neg (by simp [beq_eq_false_iff_ne.mpr h2])] at hbc
    rw [if_neg (by simp [beq_eq_false_iff_ne.mpr h3])]
    rw [← h1] at hbc
    exact hbc
  · have h3 : a.date ≠ c.date := fun h => h1 (h.trans h2.symm)
    rw [if_neg (by simp [beq_eq_false_iff_ne.mpr h1])] at hab
    rw [if_neg (by simp [beq_eq_false_iff_ne.mpr h3])]
    rw [h2] at hab
    exact hab
  · rw [if_neg (by simp [beq_eq_false_iff_ne.mpr h1])] at hab
    rw [if_neg (by simp [beq_eq_false_iff_ne.mpr h2])] at hbc
    simp only [Bool.not_eq_true'] at hab hbc
    by_cases h3 : a.date = c.date
    · exfalso
      rw [h3] at hab
      exact h1 (h3.trans (strLt_eq_of_not c.date b.date hbc hab))
    · rw [if_neg (by simp [beq_eq_false_iff_ne.mpr h3])]
      simp only [Bool.not_eq_true']
      exact strLt_false_trans a.date b.date c.date hab hbc

theorem eventLe_imp (a b : Event) (h : eventLe a b = true) :
    strLt a.date b.date = true ∨ (a.date = b.date ∧ strLt b.time a.time = false) := by
  simp only [eventLe] at h
  by_cases hd : a.date = b.date
  · rw [if_pos (beq_iff_eq.mpr hd)] at h
    simp only [Bool.not_eq_true'] at h
    exact Or.inr ⟨hd, h⟩
  · rw [if_neg (by simp [beq_eq_false_iff_ne.mpr hd])] at h
    simp only [Bool.not_eq_true'] at h
    rcases strLt_trichotomy a.date b.date with ht | ht | ht
    · exact Or.inl ht
    · exact absurd ht hd
    · simp [h] at ht

theorem eventLe_of_keys_eq (a b : Event) (hd : a.date = b.date) (ht : a.time = b.time) :
    eventLe a b = true := by
  simp only [eventLe]
  rw [if_pos (beq_iff_eq.mpr hd), ht, strLt_irrefl]
  rfl

/-- C4 -- `upcoming_events` returns exactly the events passing the filter
`e.date > now_date` or (`e.date == now_date` and `e.time ≥ now_time`)
(a permutation of the filtered list), sorted ascending by `(date, time)`
under lexicographic string comparison, and events with identical
`(date, time)` keep their insertion order: restricted to any fixed key, the
output equals the filtered input. -/
theorem upcoming_filters_and_sorts (c : Calendar) (nd nt : Str) :
    (c.upcoming_events nd nt).Perm (c.events.filter (upcomingPred nd nt)) ∧
    (c.upcoming_events nd nt).Pairwise
      (fun a b => strLt a.date b.date = true ∨
        (a.date = b.date ∧ strLt b.time a.time = false)) ∧
    (∀ dd tt, (c.upcoming_events nd nt).filter (fun e => e.date == dd && e.time == tt) =
      (c.events.filter (upcomingPred nd nt)).filter
        (fun e => e.date == dd && e.time == tt)) := by
  have htr : ∀ a b c : Event, eventLe a b → eventLe b c → eventLe a c :=
    fun a b c hab hbc => eventLe_trans a b c hab hbc
  have hto : ∀ a b : Event, eventLe a b || eventLe b a :=
    fun a b => eventLe_total a b
  simp only [Calendar.upcoming_events]
  refine ⟨List.mergeSort_perm _ _, ?_, ?_⟩
  · exact (List.sorted_mergeSort htr hto
      (c.events.filter (upcomingPred nd nt))).imp (fun h => eventLe_imp _ _ h)
  · intro dd tt
    have hKpair : ((c.events.filter (upcomingPred nd nt)).filter
        (fun e => e.date == dd && e.time == tt)).Pairwise (fun a b => eventLe a b) := by
      apply List.pairwise_of_forall_mem_list
      intro a ha b hb
      have ha' := (List.mem_filter.mp ha).2
      have hb' := (List.mem_filter.mp hb).2
      simp only [Bool.and_eq_true, beq_iff_eq] at ha' hb'
      exact eventLe_of_keys_eq a b (ha'.1.trans hb'.1.symm) (ha'.2.trans hb'.2.symm)
    have hsub : (c.events.filter (upcomingPred nd nt)).filter
        (fun e => e.date == dd && e.time == tt) <+
        (c.events.filter (upcomingPred nd nt)).mergeSort eventLe :=
      List.sublist_mergeSort htr hto hKpair (List.filter_sublist _)
    have hidem : ((c.events.filter (upcomingPred nd nt)).filter
        (fun e => e.date == dd && e.time == tt)).filter
          (fun e => e.date == dd && e.time == tt) =
        (c.events.filter (upcomingPred nd nt)).filter
          (fun e => e.date == dd && e.time == tt) :=
      List.filter_eq_self.mpr (fun x hx => (List.mem_filter.mp hx).2)
    have hsub2 := hsub.filter (fun e => e.date == dd && e.time == tt)
    rw [hidem] at hsub2
    have hperm := (List.mergeSort_perm (c.events.filter (upcomingPred nd nt)) eventLe).filter
      (fun e => e.date == dd && e.time == tt)
    exact (hsub2.eq_of_length hperm.length_eq.symm).symm

/-! ## Codec facts for the save/load round trip (C3) -/

theorem splitOnChar_ne_nil (c : Char) : ∀ s : Str, splitOnChar c s ≠ []
  | [] => by simp [splitOnChar]
  | a :: rest => by
    simp only [splitOnChar]
    cases h : splitOnChar c rest with
    | nil => simp
    | cons s ss =>
      by_cases hac : a = c <;> simp [hac]

theorem splitOnChar_of_not_mem (c : Char) : ∀ s : Str, c ∉ s → splitOnChar c s = [s]
  | [], _ => rfl
  | a :: rest, h => by
    have ha : ¬ a = c := fun hac => h (hac ▸ List.mem_cons_self a rest)
    have ih := splitOnChar_of_not_mem c rest (fun hc => h (List.mem_cons_of_mem a hc))
    simp [splitOnChar, ih, ha]

theorem splitOnChar_append (c : Char) : ∀ (xs ys : Str), c ∉ xs →
    splitOnChar c (xs ++ c :: ys) = xs :: splitOnChar c ys
  | [], ys, _ => by
    cases h : splitOnChar c ys with
    | nil => exact absurd h (splitOnChar_ne_nil c ys)
    | cons s ss => simp [splitOnChar, h]
  | a :: xs, ys, h => by
    have ha : ¬ a = c := fun hac => h (hac ▸ List.mem_cons_self a xs)
    have ih := splitOnChar_append c xs ys (fun hc => h (List.mem_cons_of_mem a hc))
    simp only [List.cons_append, splitOnChar, List.append_eq]
    rw [ih]
    simp [ha]

theorem splitOnChar_flatten_bodies (c : Char) :
    ∀ bodies : List Str, (∀ b ∈ bodies, c ∉ b) →
      splitOnChar c ((bodies.map (fun b => b ++ [c])).flatten) = bodies ++ [[]]
  | [], _ => rfl
  | b :: bodies, h => by
    have hb : c ∉ b := h b (List.mem_cons_self b bodies)
    have ih := splitOnChar_flatten_bodies c bodies
      (fun x hx => h x (List.mem_cons_of_mem b hx))
    have hassoc : (b ++ [c]) ++ ((bodies.map (fun x => x ++ [c])).flatten) =
        b ++ c :: ((bodies.map (fun x => x ++ [c])).flatten) := by
      simp
    simp only [List.map_cons, List.flatten_cons, hassoc, splitOnChar_append c _ _ hb, ih,
      List.cons_append]

theorem rustLines_of_bodies (bodies : List Str) (h : ∀ b ∈ bodies, '\n' ∉ b) :
    rustLines ((bodies.map (fun b => b ++ ['\n'])).flatten) = bodies.map stripCR := by
  simp only [rustLines, splitOnChar_flatten_bodies '\n' bodies h]
  rw [List.getLast?_concat, List.dropLast_concat]

theorem digitVal_digitChar (d : Nat) (h : d < 10) : digitVal (Nat.digitChar d) = d := by
  interval_cases d <;> rfl

theorem isDigit_digitChar (d : Nat) (h : d < 10) : (Nat.digitChar d).isDigit = true := by
  interval_cases d <;> rfl

theorem digitsVal_append_singleton (xs : Str) (c : Char) :
    digitsVal (xs ++ [c]) = 10 * digitsVal xs + digitVal c := by
  simp [digitsVal, List.foldl_append]

theorem natToStrAux_spec : ∀ (fuel n : Nat), n < fuel →
    digitsVal (natToStrAux fuel n) = n ∧ natToStrAux fuel n ≠ [] ∧
      ∀ c ∈ natToStrAux fuel n, c.isDigit = true
  | 0, n, h => absurd h (Nat.not_lt_zero n)
  | fuel + 1, n, h => by
    by_cases h10 : n < 10
    · refine ⟨?_, by simp [natToStrAux, h10], ?_⟩
      · simp [natToStrAux, h10, digitsVal, digitVal_digitChar n h10]
      · intro c hc
        simp only [natToStrAux, if_pos h10, List.mem_singleton] at hc
        subst hc
        exact isDigit_digitChar n h10
    · have hpos : 0 < n := by omega
      have hdiv : n / 10 < fuel :=
        Nat.lt_of_lt_of_le (Nat.div_lt_self hpos (by norm_num)) (Nat.lt_succ_iff.mp h)
      obtain ⟨ih1, ih2, ih3⟩ := natToStrAux_spec fuel (n / 10) hdiv
      refine ⟨?_, ?_, ?_⟩
      · simp only [natToStrAux, if_neg h10]
        rw [digitsVal_append_singleton, ih1,
          digitVal_digitChar (n % 10) (Nat.mod_lt n (by norm_num))]
        omega
      · simp [natToStrAux, h10]
      · intro c hc
        simp only [natToStrAux, if_neg h10, List.mem_append, List.mem_singleton] at hc
        rcases hc with hc | rfl
        · exact ih3 c hc
        · exact isDigit_digitChar (n % 10) (Nat.mod_lt n (by norm_num))

theorem parseU64_natToStr (n : Nat) (h : n < 2 ^ 64) : parseU64 (natToStr n) = some n := by
  obtain ⟨h1, h2, h3⟩ := natToStrAux_spec (n + 1) n (Nat.lt_succ_self n)
  have h1' : digitsVal (natToStr n) = n := h1
  have h2' : natToStr n ≠ [] := h2
  have h3' : ∀ c ∈ natToStr n, c.isDigit = true := h3
  have hhead : ¬ (natToStr n).head? = some '+' := by
    cases hs : natToStr n with
    | nil => simp
    | cons c rest =>
      have hc : c ∈ natToStr n := by rw [hs]; exact List.mem_cons_self c rest
      have hd := h3' c hc
      simp only [List.head?_cons, Option.some.injEq]
      intro hplus
      rw [hplus] at hd
      cases hd
  simp only [parseU64, if_neg hhead]
  rw [if_pos ⟨h2', List.all_eq_true.mpr h3'⟩, h1', if_pos h]

theorem mem_serializeEvent {x : Char} {e : Event} (hx : x ∈ serializeEvent e) :
    x.isDigit = true ∨ x = '|' ∨ x ∈ e.title ∨ x ∈ e.date ∨ x ∈ e.time ∨
      x ∈ e.description := by
  obtain ⟨_, _, hdig⟩ := natToStrAux_spec (e.id + 1) e.id (Nat.lt_succ_self _)
  simp only [serializeEvent, List.mem_append, List.mem_cons] at hx
  rcases hx with hx | hx
  · exact Or.inl (hdig x hx)
  · tauto

theorem no_newline_serializeEvent (e : Event)
    (h1 : '\n' ∉ e.title) (h2 : '\n' ∉ e.date) (h3 : '\n' ∉ e.time)
    (h4 : '\n' ∉ e.description) : '\n' ∉ serializeEvent e := by
  intro hx
  rcases mem_serializeEvent hx with hd | hp | hm | hm | hm | hm
  · exact absurd hd (by decide)
  · exact absurd hp (by decide)
  · exact h1 hm
  · exact h2 hm
  · exact h3 hm
  · exact h4 hm

theorem getLast?_append_pipe (xs ds : Str) (hds : ds.getLast? ≠ some '\r') :
    (xs ++ '|' :: ds).getLast? ≠ some '\r' := by
  rcases List.eq_nil_or_concat ds with rfl | ⟨l, x, rfl⟩
  · rw [List.getLast?_concat]
    simp
  · rw [List.concat_eq_append] at hds ⊢
    have hsh : xs ++ '|' :: (l ++ [x]) = (xs ++ '|' :: l) ++ [x] := by simp
    rw [hsh, List.getLast?_concat]
    rw [List.getLast?_concat] at hds
    exact hds

theorem stripCR_serializeEvent (e : Event)
    (hds : e.description.getLast? ≠ some '\r') :
    stripCR (serializeEvent e) = serializeEvent e := by
  have hsh : serializeEvent e =
      (natToStr e.id ++ '|' :: e.title ++ '|' :: e.date ++ '|' :: e.time) ++
        '|' :: e.description := by
    simp [serializeEvent]
  have hlast : (serializeEvent e).getLast? ≠ some '\r' := by
    rw [hsh]
    exact getLast?_append_pipe _ _ hds
  simp [stripCR, hlast]

theorem splitOnChar_serializeEvent (e : Event)
    (h1 : '|' ∉ e.title) (h2 : '|' ∉ e.date) (h3 : '|' ∉ e.time)
    (h4 : '|' ∉ e.description) :
    splitOnChar '|' (serializeEvent e) =
      [natToStr e.id, e.title, e.date, e.time, e.description] := by
  have hid : '|' ∉ natToStr e.id := by
    intro hx
    obtain ⟨_, _, hdig⟩ := natToStrAux_spec (e.id + 1) e.id (Nat.lt_succ_self _)
    exact absurd (hdig _ hx) (by decide)
  show splitOnChar '|' (natToStr e.id ++ '|' ::
    (e.title ++ '|' :: (e.date ++ '|' :: (e.time ++ '|' :: e.description)))) = _
  rw [splitOnChar_append '|' _ _ hid, splitOnChar_append '|' _ _ h1,
    splitOnChar_append '|' _ _ h2, splitOnChar_append '|' _ _ h3,
    splitOnChar_of_not_mem '|' _ h4]

theorem lineToEvent_serializeEvent (e : Event) (hid : e.id < 2 ^ 64)
    (h1 : '|' ∉ e.title) (h2 : '|' ∉ e.date) (h3 : '|' ∉ e.time)
    (h4 : '|' ∉ e.description) :
    lineToEvent (serializeEvent e) = some e := by
  rw [lineToEvent, splitOnChar_serializeEvent e h1 h2 h3 h4]
  simp [parseU64_natToStr e.id hid]

theorem filterMap_eq_self_of_some (f : Event → Option Event) :
    ∀ l : List Event, (∀ a ∈ l, f a = some a) → l.filterMap f = l
  | [], _ => rfl
  | a :: l, h => by
    rw [List.filterMap_cons, h a (List.mem_cons_self a l),
      filterMap_eq_self_of_some f l (fun x hx => h x (List.mem_cons_of_mem a hx))]

/-- C3 (amended) -- saving a store and loading the file into a fresh store
reproduces the exact event sequence (same ids, fields, order), provided no
field contains `'|'` or `'\n'`, no description ends with `'\r'` (Rust's
`str::lines` strips a `"\r\n"` ending, see the counterexample), and every
id fits in a `u64` (automatic in the source, where `id` has type `u64`). -/
theorem save_load_roundtrip (c : Calendar)
    (hid : ∀ e ∈ c.events, e.id < 2 ^ 64)
    (hfields : ∀ e ∈ c.events,
      ('|' ∉ e.title ∧ '\n' ∉ e.title) ∧ ('|' ∉ e.date ∧ '\n' ∉ e.date) ∧
      ('|' ∉ e.time ∧ '\n' ∉ e.time) ∧
      ('|' ∉ e.description ∧ '\n' ∉ e.description))
    (hcr : ∀ e ∈ c.events, e.description.getLast? ≠ some '\r') :
    (Calendar.new.load (some (saveContent c))).events = c.events := by
  rw [load_some_events]
  have hnew : Calendar.new.events = [] := rfl
  rw [hnew, List.nil_append]
  have hsave : saveContent c = ((c.events.map serializeEvent).map
      (fun b => b ++ ['\n'])).flatten := by
    rw [saveContent, List.map_map]
    rfl
  have hbodies : rustLines (saveContent c) = (c.events.map serializeEvent).map stripCR := by
    rw [hsave, rustLines_of_bodies]
    intro b hb
    obtain ⟨e, he, rfl⟩ := List.mem_map.mp hb
    obtain ⟨ht, hd, htm, hds⟩ := hfields e he
    exact no_newline_serializeEvent e ht.2 hd.2 htm.2 hds.2
  have hstrip : (c.events.map serializeEvent).map stripCR = c.events.map serializeEvent := by
    rw [List.map_map]
    rw [List.map_congr_left (g := serializeEvent) ?_]
    intro e he
    exact stripCR_serializeEvent e (hcr e he)
  rw [parsedEvents, hbodies, hstrip, List.filterMap_map]
  apply filterMap_eq_self_of_some
  intro e he
  obtain ⟨ht, hd, htm, hds⟩ := hfields e he
  show lineToEvent (serializeEvent e) = some e
  exact lineToEvent_serializeEvent e (hid e he) ht.1 hd.1 htm.1 hds.1

/-- C3 -- witness: the three-event store of the spec's scenario S2
round-trips exactly. -/
theorem save_load_roundtrip_witness :
    ((∀ e ∈ (Calendar.mk 3
        [Event.mk 1 (str "A") (str "2025-02-01") (str "10:00") (str "x"),
         Event.mk 2 (str "B") (str "2025-02-01") (str "09:00") (str "y"),
         Event.mk 3 (str "C") (str "2025-01-31") (str "23:59") (str "z")]).events,
        e.id < 2 ^ 64) ∧
     (∀ e ∈ (Calendar.mk 3
        [Event.mk 1 (str "A") (str "2025-02-01") (str "10:00") (str "x"),
         Event.mk 2 (str "B") (str "2025-02-01") (str "09:00") (str "y"),
         Event.mk 3 (str "C") (str "2025-01-31") (str "23:59") (str "z")]).events,
        ('|' ∉ e.title ∧ '\n' ∉ e.title) ∧ ('|' ∉ e.date ∧ '\n' ∉ e.date) ∧
        ('|' ∉ e.time ∧ '\n' ∉ e.time) ∧
        ('|' ∉ e.description ∧ '\n' ∉ e.description)) ∧
     (∀ e ∈ (Calendar.mk 3
        [Event.mk 1 (str "A") (str "2025-02-01") (str "10:00") (str "x"),
         Event.mk 2 (str "B") (str "2025-02-01") (str "09:00") (str "y"),
         Event.mk 3 (str "C") (str "2025-01-31") (str "23:59") (str "z")]).events,
        e.description.getLast? ≠ some '\r')) ∧
    (Calendar.new.load (some (saveContent (Calendar.mk 3
        [Event.mk 1 (str "A") (str "2025-02-01") (str "10:00") (str "x"),
         Event.mk 2 (str "B") (str "2025-02-01") (str "09:00") (str "y"),
         Event.mk 3 (str "C") (str "2025-01-31") (str "23:59") (str "z")])))).events =
      (Calendar.mk 3
        [Event.mk 1 (str "A") (str "2025-02-01") (str "10:00") (str "x"),
         Event.mk 2 (str "B") (str "2025-02-01") (str "09:00") (str "y"),
         Event.mk 3 (str "C") (str "2025-01-31") (str "23:59") (str "z")]).events :=
  ⟨⟨by decide, by decide, by decide⟩,
   save_load_roundtrip _ (by decide) (by decide) (by decide)⟩

/-- C3 -- counterexample. All fields of this one-event store avoid both
`'|'` and `'\n'`, yet the round trip is not the identity: the description
is exactly `"\r"`, the saved line therefore ends in `"\r\n"`, and Rust's
`str::lines` strips the whole `"\r\n"`, so the reloaded event has an empty
description. -/
theorem roundtrip_loses_trailing_cr_cex :
    (∀ e ∈ (Calendar.mk 1
        [Event.mk 1 (str "t") (str "2025-01-01") (str "10:00") ['\r']]).events,
      ('|' ∉ e.title ∧ '\n' ∉ e.title) ∧ ('|' ∉ e.date ∧ '\n' ∉ e.date) ∧
      ('|' ∉ e.time ∧ '\n' ∉ e.time) ∧
      ('|' ∉ e.description ∧ '\n' ∉ e.description)) ∧
    (Calendar.new.load (some (saveContent (Calendar.mk 1
        [Event.mk 1 (str "t") (str "2025-01-01") (str "10:00") ['\r']])))).events ≠
      (Calendar.mk 1
        [Event.mk 1 (str "t") (str "2025-01-01") (str "10:00") ['\r']]).events := by
  refine ⟨by decide, by decide⟩
